import Mathlib

/-!
Verification of the transcript tooling of carbonandcardboard.com.

The development shallowly embeds the two Python scripts of the repository:

* `format_transcript.py` — the speaker-header matcher (the regex
  `^(.+?)\s+\((\d+:\d+)\)\s*$` applied with `re.match`), the line-oriented
  transcript segmenter `parse_transcript`, the speaker-to-style assigner
  `get_speaker_mapping`, the paragraph splitter used by `generate_html`,
  and the command-line dispatch of `main`.
* `episode_index.py` — the command-line dispatch of its `main`.

Lines of transcripts are embedded as `String` values (Python reads the file
with `readlines`, so a line never holds an interior newline; the code then
applies `rstrip` for the newline character, embedded as `rstripNL`).

Character classes: `isPySpace` embeds the regex class for whitespace and the
set stripped by `str.strip`, which for Python 3 strings is the full Unicode
whitespace set; the digit runs of the pattern are embedded with
`Char.isDigit`, and the theorems about the matcher constrain the digit
groups of the decompositions to these digits.
-/

/-- Whitespace test embedding the regex whitespace class and `str.strip` for
Python 3 strings: the ASCII whitespace characters (space, tab, newline,
carriage return, vertical tab, form feed) together with the other Unicode
whitespace code points — the separator controls U+001C-U+001F, next line
U+0085, no-break space U+00A0, ogham space mark U+1680, the spaces
U+2000-U+200A, line separator U+2028, paragraph separator U+2029, narrow
no-break space U+202F, medium mathematical space U+205F and ideographic
space U+3000. -/
def isPySpace (c : Char) : Bool :=
  c = ' ' || c = '\t' || c = '\n' || c = '\r' || c = '\x0b' || c = '\x0c' ||
  c = '\x1c' || c = '\x1d' || c = '\x1e' || c = '\x1f' || c = '\x85' || c = '\xa0' ||
  c = '\u1680' || c = '\u2000' || c = '\u2001' || c = '\u2002' ||
  c = '\u2003' || c = '\u2004' || c = '\u2005' || c = '\u2006' ||
  c = '\u2007' || c = '\u2008' || c = '\u2009' || c = '\u200a' ||
  c = '\u2028' || c = '\u2029' || c = '\u202f' || c = '\u205f' ||
  c = '\u3000'

/-- Newline test, used for `str.split` on blank lines and `rstrip` below. -/
def isNl (c : Char) : Bool := c = '\n'

/-- Embeds matching the regex fragment `\s+\((\d+:\d+)\)\s*$` against the
whole remainder of a line (the part after the lazily captured name).  By the
backtracking semantics of the Python regex engine this remainder match is
deterministic: the whitespace run, the two digit runs and the closing
parenthesis are all forced.  Returns the timestamp capture on success. -/
def tailParse (s : List Char) : Option (List Char) :=
  match s.dropWhile isPySpace with
  | '(' :: r2 =>
    if (s.takeWhile isPySpace).isEmpty then none
    else
      match r2.dropWhile Char.isDigit with
      | ':' :: r4 =>
        if (r2.takeWhile Char.isDigit).isEmpty then none
        else
          match r4.dropWhile Char.isDigit with
          | ')' :: r6 =>
            if (r4.takeWhile Char.isDigit).isEmpty then none
            else if r6.all isPySpace then
              some (r2.takeWhile Char.isDigit ++ ':' :: r4.takeWhile Char.isDigit)
            else none
          | _ => none
      | _ => none
  | _ => none

/-- Embeds the lazy scan of `(.+?)` in `speaker_pattern`: the name capture
grows one character at a time (never across a newline, which `.` cannot
match) and the rest of the line is tested against the anchored remainder of
the pattern; the first success wins, exactly as the lazy quantifier
backtracks. -/
def matchFrom (nameRev : List Char) : List Char → Option (String × String)
  | [] => none
  | c :: rest =>
    if c = '\n' then none
    else
      match tailParse rest with
      | some ts => some (⟨(c :: nameRev).reverse⟩, ⟨ts⟩)
      | none => matchFrom (c :: nameRev) rest

/-- The speaker-header matcher: `speaker_pattern.match(line)` of
`format_transcript.py` line 33, returning the two captures
`(speaker name, timestamp)` when the line is a header. -/
def speakerMatch (line : String) : Option (String × String) :=
  matchFrom [] line.data

/-- Embeds `line.rstrip` for the newline character
(`format_transcript.py` line 41). -/
def rstripNL (s : String) : String :=
  ⟨(s.data.reverse.dropWhile isNl).reverse⟩

/-- A transcript section: the dictionaries with keys `speaker`, `timestamp`
and `text` built by `parse_transcript`. -/
structure Section where
  speaker : String
  timestamp : String
  text : String
deriving DecidableEq, Repr

/-- Embeds `str.strip` over a character list: drop whitespace from the
front, then from the back. -/
def stripL (l : List Char) : List Char :=
  ((l.dropWhile isPySpace).reverse.dropWhile isPySpace).reverse

/-- Embeds the section finalisation of `parse_transcript`: join the buffered
body lines with a newline and strip the result
(`format_transcript.py` line 52). -/
def joinStrip (buf : List String) : String :=
  ⟨stripL (String.intercalate "\n" buf).data⟩

/-- The accumulator loop of `parse_transcript` (lines 40-70): the optional
current section `(speaker, timestamp, buffered lines)` threaded through the
lines.  A header finalises the previous accumulator, if any, and opens a new
one; a body line is buffered when an accumulator is open and discarded
otherwise; end of input finalises the open accumulator. -/
def parseLoop (acc : Option (String × String × List String)) :
    List String → List Section
  | [] =>
    match acc with
    | none => []
    | some (sp, ts, buf) => [⟨sp, ts, joinStrip buf⟩]
  | l :: ls =>
    match speakerMatch (rstripNL l), acc with
    | some (name, ts), none => parseLoop (some (name, ts, [])) ls
    | some (name, ts), some (sp, ts0, buf) =>
      ⟨sp, ts0, joinStrip buf⟩ :: parseLoop (some (name, ts, [])) ls
    | none, none => parseLoop none ls
    | none, some (sp, ts0, buf) =>
      parseLoop (some (sp, ts0, buf ++ [rstripNL l])) ls

/-- The transcript segmenter `parse_transcript` of `format_transcript.py`,
taking the list of input lines. -/
def parseTranscript (lines : List String) : List Section :=
  parseLoop none lines

/-- The ordered sequence of `(name, timestamp)` pairs the matcher extracts
from the header lines of the input. -/
def headersOf (lines : List String) : List (String × String) :=
  lines.filterMap (fun l => speakerMatch (rstripNL l))

/-- The `unique_speakers` list of `get_speaker_mapping`
(`format_transcript.py` lines 82-85): speakers in order of first
appearance. -/
def uniqueSpeakers (sections : List Section) : List String :=
  sections.foldl (fun acc s => if s.speaker ∈ acc then acc else acc ++ [s.speaker]) []

/-- The enumeration loop of `get_speaker_mapping` (lines 88-90), building
the association of each unique speaker with class number `i % 8 + 1`. -/
def mappingFrom : Nat → List String → List (String × Nat)
  | _, [] => []
  | i, s :: rest => (s, i % 8 + 1) :: mappingFrom (i + 1) rest

/-- The speaker to class-number mapping of `get_speaker_mapping`, as an
association list keyed by speaker name (the keys are distinct, so lookup
agrees with the Python dictionary). -/
def speakerMapping (sections : List Section) : List (String × Nat) :=
  mappingFrom 0 (uniqueSpeakers sections)

/-- Embeds Python `text.split` on the two-character separator of one blank
line (two consecutive newlines), scanning left to right and consuming
exactly two newlines per separator. -/
def split2 : List Char → List (List Char)
  | [] => [[]]
  | '\n' :: '\n' :: rest => [] :: split2 rest
  | c :: rest =>
    match split2 rest with
    | [] => [[c]]
    | h :: t => (c :: h) :: t

/-- Embeds the replacement of every newline by a space
(`format_transcript.py` line 182). -/
def replCh (c : Char) : Char :=
  if c = '\n' then ' ' else c

/-- The strip-and-filter stage shared by the paragraph pipelines: strip each
chunk and drop the chunks that are empty after stripping (the comprehension
filter of `format_transcript.py` line 177). -/
def chunksOf (L : List (List Char)) : List (List Char) :=
  (L.map stripL).filter (fun l => !l.isEmpty)

/-- The paragraph splitter of `generate_html` (lines 176-183): split the
section text on blank lines, strip each chunk, drop chunks that are empty
after stripping, and replace every remaining newline by one space. -/
def paragraphs (text : String) : List String :=
  (chunksOf (split2 text.data)).map (fun l => ⟨l.map replCh⟩)

/-- Modelled from the spec: the paragraph algorithm as worded in the spec,
splitting on each run of two or more consecutive line breaks (a maximal
newline run), then stripping, discarding empties and replacing remaining
newlines by spaces.  Compared against `paragraphs`, which is embedded from
the source. -/
def splitRuns : List Char → List (List Char)
  | [] => [[]]
  | '\n' :: '\n' :: rest => [] :: splitRuns (rest.dropWhile isNl)
  | c :: rest =>
    match splitRuns rest with
    | [] => [[c]]
    | h :: t => (c :: h) :: t
termination_by l => l.length
decreasing_by
  · exact Nat.lt_succ_of_lt (Nat.lt_succ_of_le (List.dropWhile_sublist isNl).length_le)
  · simp

/-- Modelled from the spec: paragraph production as worded in the spec,
using the maximal-run splitter `splitRuns`. -/
def specParagraphs (text : String) : List String :=
  (chunksOf (splitRuns text.data)).map (fun l => ⟨l.map replCh⟩)

/-- The usage text printed by `main` of `format_transcript.py`
(lines 203-205) when the argument count is wrong. -/
def usageLines : List String :=
  ["Usage: python format_transcript.py <input_transcript.txt> <output.html>",
   "\nExample:",
   "    python format_transcript.py transcript_episode1.txt transcript_ep1.html"]

/-- An ASCII single quote, written by code point to keep the sources free of
stray quote characters. -/
def squote : String := ⟨[Char.ofNat 39]⟩

/-- The error line printed by `main` of `format_transcript.py` (line 213)
when the input path does not exist. -/
def missingInputMsg (inputFile : String) : String :=
  "Error: Input file " ++ squote ++ inputFile ++ squote ++ " not found."

/-- Embeds the command-line dispatch of `main` in `format_transcript.py`
(lines 199-236).  `argv` models `sys.argv` (entry 0 is the script name);
`pathExists` models `os.path.exists`.  The result records the exit code,
the lines printed before any conversion work, and the paths of the files
written.  On the success branch the script writes exactly the requested
output file; its progress printout and the HTML contents are not modelled
here, as the claims under verification concern only the failure branches. -/
def formatTranscriptMain (argv : List String) (pathExists : String → Bool) :
    Nat × List String × List String :=
  if argv.length ≠ 3 then (1, usageLines, [])
  else
    let inputFile := argv.getD 1 ""
    let outputFile := argv.getD 2 ""
    if !pathExists inputFile then (1, [missingInputMsg inputFile], [])
    else (0, ["Reading transcript from: " ++ inputFile], [outputFile])

/-- Embeds the command-line dispatch of `main` in `episode_index.py`
(lines 237-267).  The script takes no arguments and reads the fixed catalog
path `episodes/episodes.json` next to the script; `jsonExists` models the
`json_path.exists()` test.  The result records the exit code, the first
printed line and the paths written.  On the success branch the two index
pages are written; their HTML contents are not modelled here, as the claim
under verification concerns only the failure branch. -/
def episodeIndexMain (scriptDir : String) (jsonExists : Bool) :
    Nat × List String × List String :=
  let jsonPath := scriptDir ++ "/episodes/episodes.json"
  if !jsonExists then (1, ["Error: " ++ jsonPath ++ " not found."], [])
  else (0, ["Reading episodes from: " ++ jsonPath],
        [scriptDir ++ "/episodes/index.html", scriptDir ++ "/index.html"])

lemma joinStrip_nil : joinStrip [] = "" := rfl

lemma parseLoop_proj (lines : List String) :
    ∀ acc, (parseLoop acc lines).map (fun s => (s.speaker, s.timestamp)) =
      (match acc with
       | none => []
       | some (sp, ts, _) => [(sp, ts)]) ++ headersOf lines := by
  induction lines with
  | nil =>
    intro acc
    rcases acc with _ | ⟨sp, ts, buf⟩ <;> simp [parseLoop, headersOf]
  | cons l ls ih =>
    intro acc
    rcases h : speakerMatch (rstripNL l) with _ | ⟨name, ts⟩ <;>
      rcases acc with _ | ⟨sp, ts0, buf⟩ <;>
        simp [parseLoop, h, ih, headersOf, List.filterMap_cons]

/-- Claim C1: the Segmenter emits Sections in header order, the ordered
sequence of `(speaker, timestamp)` pairs of the emitted Sections equals the
sequence of pairs the Matcher extracts from the header lines, and the number
of Sections equals the number of recognised header lines. -/
theorem c1_sections_match_headers (lines : List String) :
    (parseTranscript lines).map (fun s => (s.speaker, s.timestamp)) = headersOf lines ∧
    (parseTranscript lines).length = (headersOf lines).length := by
  have h1 : (parseTranscript lines).map (fun s => (s.speaker, s.timestamp)) =
      headersOf lines := by
    simpa [parseTranscript] using parseLoop_proj lines none
  refine ⟨h1, ?_⟩
  calc (parseTranscript lines).length
      = ((parseTranscript lines).map (fun s => (s.speaker, s.timestamp))).length := by
        rw [List.length_map]
    _ = (headersOf lines).length := by rw [h1]

lemma parseLoop_skip (pre rest : List String)
    (h : ∀ l ∈ pre, speakerMatch (rstripNL l) = none) :
    parseLoop none (pre ++ rest) = parseLoop none rest := by
  induction pre with
  | nil => rfl
  | cons p pre ih =>
    have hp := h p (by simp)
    have := ih (fun l hl => h l (by simp [hl]))
    simpa [parseLoop, hp] using this

/-- Claim C5: every line before the first recognised header is discarded
(parsing a non-header prefix followed by anything equals parsing just the
rest), and an input with zero recognised headers yields no Sections. -/
theorem c5_discard_before_first_header (pre rest : List String)
    (h : ∀ l ∈ pre, speakerMatch (rstripNL l) = none) :
    parseTranscript (pre ++ rest) = parseTranscript rest ∧
    parseTranscript pre = [] := by
  constructor
  · simpa [parseTranscript] using parseLoop_skip pre rest h
  · have := parseLoop_skip pre [] h
    simpa [parseTranscript] using this

theorem c5_discard_before_first_header_witness :
    parseTranscript (["intro text with no header"] ++ ["Alice (01:00)"]) =
      parseTranscript ["Alice (01:00)"] ∧
    parseTranscript ["intro text with no header"] = [] :=
  c5_discard_before_first_header ["intro text with no header"] ["Alice (01:00)"]
    (by intro l hl; simp at hl; subst hl; decide)

lemma parseLoop_append_decomp (pre xs : List String) :
    ∀ acc, ∃ out acc2, parseLoop acc (pre ++ xs) = out ++ parseLoop acc2 xs := by
  induction pre with
  | nil => exact fun acc => ⟨[], acc, rfl⟩
  | cons p pre ih =>
    intro acc
    rcases h : speakerMatch (rstripNL p) with _ | ⟨name, ts⟩ <;>
      rcases acc with _ | ⟨sp, ts0, buf⟩
    · obtain ⟨out, acc2, he⟩ := ih none
      exact ⟨out, acc2, by simp [parseLoop, h, he]⟩
    · obtain ⟨out, acc2, he⟩ := ih (some (sp, ts0, buf ++ [rstripNL p]))
      exact ⟨out, acc2, by simp [parseLoop, h, he]⟩
    · obtain ⟨out, acc2, he⟩ := ih (some (name, ts, []))
      exact ⟨out, acc2, by simp [parseLoop, h, he]⟩
    · obtain ⟨out, acc2, he⟩ := ih (some (name, ts, []))
      exact ⟨⟨sp, ts0, joinStrip buf⟩ :: out, acc2, by simp [parseLoop, h, he]⟩

/-- Claim C6: a header line immediately followed by another header line, or
by the end of the input, still produces a Section, and that Section has an
empty text field. -/
theorem c6_empty_section_text (pre : List String) (h : String) (rest : List String)
    (sp ts : String)
    (hh : speakerMatch (rstripNL h) = some (sp, ts))
    (hnext : rest = [] ∨ ∃ x xs s2 t2, rest = x :: xs ∧
      speakerMatch (rstripNL x) = some (s2, t2)) :
    Section.mk sp ts "" ∈ parseTranscript (pre ++ h :: rest) := by
  obtain ⟨out, acc2, he⟩ := parseLoop_append_decomp pre (h :: rest) none
  rw [parseTranscript, he]
  refine List.mem_append_right _ ?_
  rcases hnext with hnil | ⟨x, xs, s2, t2, hxs, hx⟩
  · subst hnil
    rcases acc2 with _ | ⟨sp0, ts0, buf⟩ <;>
      simp [parseLoop, hh, joinStrip_nil]
  · subst hxs
    rcases acc2 with _ | ⟨sp0, ts0, buf⟩ <;>
      simp [parseLoop, hh, hx, joinStrip_nil]

theorem c6_empty_section_text_witness :
    Section.mk "Alice" "00:01" "" ∈
      parseTranscript ([] ++ "Alice (00:01)" :: ["Bob (00:05)"]) :=
  c6_empty_section_text [] "Alice (00:01)" ["Bob (00:05)"] "Alice" "00:01"
    (by decide) (Or.inr ⟨"Bob (00:05)", [], "Bob", "00:05", rfl, by decide⟩)

lemma uniqueSpeakers_aux_nodup (sections : List Section) :
    ∀ acc : List String, acc.Nodup →
      (sections.foldl
        (fun acc s => if s.speaker ∈ acc then acc else acc ++ [s.speaker]) acc).Nodup := by
  induction sections with
  | nil => intro acc h; simpa using h
  | cons s sections ih =>
    intro acc h
    simp only [List.foldl_cons]
    by_cases hm : s.speaker ∈ acc
    · simpa [hm] using ih acc h
    · have hnd : (acc ++ [s.speaker]).Nodup := by
        simp [List.nodup_append, h, hm]
      simpa [hm] using ih _ hnd

lemma uniqueSpeakers_nodup (sections : List Section) :
    (uniqueSpeakers sections).Nodup :=
  uniqueSpeakers_aux_nodup sections [] List.nodup_nil

lemma lookup_mappingFrom :
    ∀ (l : List String) (i n : Nat) (h : n < l.length) (name : String),
      l.Nodup → l.get ⟨n, h⟩ = name →
      List.lookup name (mappingFrom i l) = some ((i + n) % 8 + 1) := by
  intro l
  induction l with
  | nil => intro i n h; exact absurd h (by simp)
  | cons s rest ih =>
    intro i n h name hnd hget
    cases n with
    | zero =>
      have hs : s = name := by simpa using hget
      subst hs
      simp [mappingFrom, List.lookup]
    | succ n =>
      have hget' : rest.get ⟨n, by simpa using Nat.lt_of_succ_lt_succ h⟩ = name := by
        simpa using hget
      have hmem : name ∈ rest := hget' ▸ rest.get_mem _ _
      have hs : s ≠ name := by
        intro he
        exact (List.nodup_cons.mp hnd).1 (he ▸ hmem)
      have hbeq : (name == s) = false := beq_eq_false_iff_ne.mpr (Ne.symm hs)
      have hrec := ih (i + 1) n (by simpa using Nat.lt_of_succ_lt_succ h) name
        (List.nodup_cons.mp hnd).2 hget'
      have harith : i + 1 + n = i + (n + 1) := by omega
      simp only [mappingFrom, List.lookup, hbeq]
      rw [hrec, harith]

/-- Claim C4: the Nth unique speaker, 0-indexed in order of first appearance
across the sections and compared by exact string equality, is mapped to
style identifier `N % 8 + 1`. -/
theorem c4_style_assignment (sections : List Section) (n : Nat)
    (h : n < (uniqueSpeakers sections).length) (name : String)
    (hname : (uniqueSpeakers sections).get ⟨n, h⟩ = name) :
    List.lookup name (speakerMapping sections) = some (n % 8 + 1) := by
  have := lookup_mappingFrom (uniqueSpeakers sections) 0 n h name
    (uniqueSpeakers_nodup sections) hname
  simpa [speakerMapping] using this

theorem c4_style_assignment_witness :
    List.lookup "s8" (speakerMapping
      [⟨"s0", "0:0", ""⟩, ⟨"s1", "0:0", ""⟩, ⟨"s2", "0:0", ""⟩, ⟨"s3", "0:0", ""⟩,
       ⟨"s4", "0:0", ""⟩, ⟨"s5", "0:0", ""⟩, ⟨"s6", "0:0", ""⟩, ⟨"s7", "0:0", ""⟩,
       ⟨"s8", "0:0", ""⟩, ⟨"s9", "0:0", ""⟩]) = some 1 ∧
    List.lookup "s9" (speakerMapping
      [⟨"s0", "0:0", ""⟩, ⟨"s1", "0:0", ""⟩, ⟨"s2", "0:0", ""⟩, ⟨"s3", "0:0", ""⟩,
       ⟨"s4", "0:0", ""⟩, ⟨"s5", "0:0", ""⟩, ⟨"s6", "0:0", ""⟩, ⟨"s7", "0:0", ""⟩,
       ⟨"s8", "0:0", ""⟩, ⟨"s9", "0:0", ""⟩]) = some 2 :=
  ⟨c4_style_assignment _ 8 (by decide) "s8" (by decide),
   c4_style_assignment _ 9 (by decide) "s9" (by decide)⟩

/-- Claim C9: the transcript converter exits non-zero with the usage text on
a wrong argument count and with an error message on a missing input file,
writing no output file in either case; the episode index generator exits
non-zero with an error message and writes nothing when its fixed-location
catalog is absent. -/
theorem c9_cli_error_paths (argv : List String) (pathExists : String → Bool)
    (scriptDir : String) :
    (argv.length ≠ 3 → formatTranscriptMain argv pathExists = (1, usageLines, [])) ∧
    (argv.length = 3 → pathExists (argv.getD 1 "") = false →
      formatTranscriptMain argv pathExists =
        (1, [missingInputMsg (argv.getD 1 "")], [])) ∧
    episodeIndexMain scriptDir false =
      (1, ["Error: " ++ (scriptDir ++ "/episodes/episodes.json") ++ " not found."], []) := by
  refine ⟨fun hlen => ?_, fun hlen hex => ?_, ?_⟩
  · simp [formatTranscriptMain, hlen]
  · rw [List.getD_eq_getElem _ _ (by omega)] at hex
    simp [formatTranscriptMain, hlen, hex]
  · simp [episodeIndexMain]

theorem c9_cli_error_paths_witness :
    formatTranscriptMain ["format_transcript.py"] (fun _ => false) =
      (1, usageLines, []) ∧
    formatTranscriptMain ["format_transcript.py", "in.txt", "out.html"]
      (fun _ => false) = (1, [missingInputMsg "in.txt"], []) ∧
    episodeIndexMain "." false =
      (1, ["Error: " ++ ("." ++ "/episodes/episodes.json") ++ " not found."], []) := by
  refine ⟨(c9_cli_error_paths ["format_transcript.py"] (fun _ => false) ".").1 (by decide),
    ?_, (c9_cli_error_paths ["format_transcript.py"] (fun _ => false) ".").2.2⟩
  have h := (c9_cli_error_paths ["format_transcript.py", "in.txt", "out.html"]
    (fun _ => false) ".").2.1 (by decide) rfl
  simpa using h

lemma splitWhile_app (p : Char → Bool) (l : List Char) (c : Char) (r : List Char)
    (hl : ∀ x ∈ l, p x = true) (hc : p c = false) :
    (l ++ c :: r).takeWhile p = l ∧ (l ++ c :: r).dropWhile p = c :: r := by
  induction l with
  | nil =>
    constructor
    · exact List.takeWhile_cons_of_neg (by simp [hc])
    · exact List.dropWhile_cons_of_neg (by simp [hc])
  | cons a l ih =>
    have ha : p a = true := hl a (by simp)
    have ih' := ih (fun x hx => hl x (by simp [hx]))
    constructor
    · simpa [List.takeWhile_cons, ha] using ih'.1
    · simpa [List.dropWhile_cons, ha] using ih'.2

lemma tailParse_canonical (w d1 d2 t : List Char)
    (hw : w ≠ []) (hwAll : ∀ c ∈ w, isPySpace c = true)
    (hd1 : d1 ≠ []) (hd1All : ∀ c ∈ d1, c.isDigit = true)
    (hd2 : d2 ≠ []) (hd2All : ∀ c ∈ d2, c.isDigit = true)
    (ht : ∀ c ∈ t, isPySpace c = true) :
    tailParse (w ++ '(' :: (d1 ++ ':' :: (d2 ++ ')' :: t))) = some (d1 ++ ':' :: d2) := by
  obtain ⟨htw, hdw⟩ :=
    splitWhile_app isPySpace w '(' (d1 ++ ':' :: (d2 ++ ')' :: t)) hwAll (by decide)
  obtain ⟨htd1, hdd1⟩ :=
    splitWhile_app Char.isDigit d1 ':' (d2 ++ ')' :: t) hd1All (by decide)
  obtain ⟨htd2, hdd2⟩ := splitWhile_app Char.isDigit d2 ')' t hd2All (by decide)
  simp only [tailParse, hdw, htw, hdd1, htd1, hdd2, htd2]
  simp [List.isEmpty_iff, hw, hd1, hd2, List.all_eq_true]
  exact ht

lemma tailParse_some_decomp (s ts : List Char) (h : tailParse s = some ts) :
    ∃ u v, s = u ++ '(' :: v ∧ u ≠ [] ∧ (∀ c ∈ u, isPySpace c = true) ∧ '(' ∉ v := by
  unfold tailParse at h
  split at h
  case _ r2 heq =>
    split at h
    · exact absurd h (by simp)
    case _ hne =>
      split at h
      case _ r4 heq2 =>
        split at h
        · exact absurd h (by simp)
        case _ =>
          split at h
          case _ r6 heq3 =>
            split at h
            · exact absurd h (by simp)
            case _ =>
              split at h
              case _ hall =>
                refine ⟨s.takeWhile isPySpace, r2, ?_, ?_, ?_, ?_⟩
                · conv_lhs =>
                    rw [← List.takeWhile_append_dropWhile (p := isPySpace) (l := s)]
                  rw [heq]
                · intro hnil
                  rw [hnil] at hne
                  exact hne rfl
                · exact fun c hc => List.mem_takeWhile_imp hc
                · have e2 : r2 = r2.takeWhile Char.isDigit ++ ':' :: r4 := by
                    conv_lhs =>
                      rw [← List.takeWhile_append_dropWhile (p := Char.isDigit) (l := r2)]
                    rw [heq2]
                  have e3 : r4 = r4.takeWhile Char.isDigit ++ ')' :: r6 := by
                    conv_lhs =>
                      rw [← List.takeWhile_append_dropWhile (p := Char.isDigit) (l := r4)]
                    rw [heq3]
                  intro hmem
                  rw [e2] at hmem
                  rcases List.mem_append.mp hmem with h1 | h1
                  · exact absurd (List.mem_takeWhile_imp h1) (by decide)
                  · rcases List.mem_cons.mp h1 with h1 | h1
                    · exact absurd h1 (by decide)
                    · rw [e3] at h1
                      rcases List.mem_append.mp h1 with h2 | h2
                      · exact absurd (List.mem_takeWhile_imp h2) (by decide)
                      · rcases List.mem_cons.mp h2 with h2 | h2
                        · exact absurd h2 (by decide)
                        · exact absurd (List.all_eq_true.mp hall _ h2) (by decide)
              · exact absurd h (by simp)
          · exact absurd h (by simp)
      · exact absurd h (by simp)
  · exact absurd h (by simp)

lemma append_cons_inj (p : List Char) :
    ∀ (p' q q' : List Char) (a : Char), a ∉ p → a ∉ p' →
      p ++ a :: q = p' ++ a :: q' → p = p' ∧ q = q' := by
  induction p with
  | nil =>
    intro p' q q' a _ hp' h
    cases p' with
    | nil => simpa using h
    | cons b p'' =>
      exfalso
      have hb : a = b := by simpa using congrArg (fun l => l.head?) h
      exact hp' (by simp [hb.symm])
  | cons b p'' ih =>
    intro p' q q' a hp hp' h
    cases p' with
    | nil =>
      exfalso
      have hb : b = a := by simpa using congrArg (fun l => l.head?) h
      exact hp (by simp [hb])
    | cons b' p''' =>
      have hb : b = b' := by simpa using congrArg (fun l => l.head?) h
      subst hb
      have htl : p'' ++ a :: q = p''' ++ a :: q' := by
        simpa using congrArg List.tail h
      have hres := ih p''' q q' a (fun hm => hp (by simp [hm]))
        (fun hm => hp' (by simp [hm])) htl
      exact ⟨by rw [hres.1], hres.2⟩

lemma tailParse_none_of_trailing (x w d1 d2 t : List Char)
    (hx : ∃ c, x.getLast? = some c ∧ isPySpace c = false)
    (hwAll : ∀ c ∈ w, isPySpace c = true)
    (hd1All : ∀ c ∈ d1, c.isDigit = true)
    (hd2All : ∀ c ∈ d2, c.isDigit = true)
    (ht : ∀ c ∈ t, isPySpace c = true) :
    tailParse (x ++ (w ++ '(' :: (d1 ++ ':' :: (d2 ++ ')' :: t)))) = none := by
  obtain ⟨cl, hcl, hclws⟩ := hx
  rcases htp : tailParse (x ++ (w ++ '(' :: (d1 ++ ':' :: (d2 ++ ')' :: t)))) with _ | ts
  · rfl
  exfalso
  obtain ⟨u, v, hs, hu, huws, hv⟩ := tailParse_some_decomp _ _ htp
  have hR : '(' ∉ (d1 ++ ':' :: (d2 ++ ')' :: t)) := by
    intro hmem
    rcases List.mem_append.mp hmem with h1 | h1
    · exact absurd (hd1All _ h1) (by decide)
    · rcases List.mem_cons.mp h1 with h1 | h1
      · exact absurd h1 (by decide)
      · rcases List.mem_append.mp h1 with h2 | h2
        · exact absurd (hd2All _ h2) (by decide)
        · rcases List.mem_cons.mp h2 with h2 | h2
          · exact absurd h2 (by decide)
          · exact absurd (ht _ h2) (by decide)
  have huP : '(' ∉ u := fun hmem => absurd (huws _ hmem) (by decide)
  have hs' : (x ++ w) ++ '(' :: (d1 ++ ':' :: (d2 ++ ')' :: t)) = u ++ '(' :: v := by
    rw [List.append_assoc]; exact hs
  have hxw : '(' ∉ x ++ w := by
    intro hmem
    have hcount := congrArg (List.count '(') hs'
    have h1 : List.count '(' (u ++ '(' :: v) = 1 := by
      simp [List.count_append, List.count_cons,
        List.count_eq_zero.mpr huP, List.count_eq_zero.mpr hv]
    have h2 : 1 ≤ List.count '(' (x ++ w) := List.one_le_count_iff.mpr hmem
    rw [h1] at hcount
    have h3 : List.count '(' ((x ++ w) ++ '(' :: (d1 ++ ':' :: (d2 ++ ')' :: t))) =
        List.count '(' (x ++ w) + 1 := by
      simp [List.count_append, List.count_cons, List.count_eq_zero.mpr hR]
      omega
    omega
  obtain ⟨he, -⟩ := append_cons_inj (x ++ w) u (d1 ++ ':' :: (d2 ++ ')' :: t)) v '('
    hxw huP hs'
  have hclmem : cl ∈ x := List.mem_of_getLast?_eq_some hcl
  have : isPySpace cl = true := huws cl (he ▸ List.mem_append_left w hclmem)
  rw [this] at hclws
  simp at hclws

lemma matchFrom_found (n : List Char) :
    ∀ (nameRev rest ts : List Char),
      n ≠ [] → (∀ c ∈ n, c ≠ '\n') →
      (∀ m, m ≠ [] → m ≠ n → (∃ u, u ≠ [] ∧ n = u ++ m) → tailParse (m ++ rest) = none) →
      tailParse rest = some ts →
      matchFrom nameRev (n ++ rest) = some (⟨nameRev.reverse ++ n⟩, ⟨ts⟩) := by
  induction n with
  | nil => intro _ _ _ hn _ _ _; exact absurd rfl hn
  | cons c n' ih =>
    intro nameRev rest ts _ hnl hsuf htail
    have hc : c ≠ '\n' := hnl c (by simp)
    by_cases hn' : n' = []
    · subst hn'
      simp [matchFrom, hc, htail]
    · have hlen : ∀ m : List Char, (∃ u, u ≠ [] ∧ n' = u ++ m) → m ≠ c :: n' := by
        rintro m ⟨u, hu, hum⟩ he
        have h1 : n'.length = u.length + m.length := by rw [hum]; simp
        have h2 : m.length = n'.length + 1 := by rw [he]; simp
        have h3 : 1 ≤ u.length := List.length_pos.mpr hu
        omega
      have htp : tailParse (n' ++ rest) = none :=
        hsuf n' hn' (Ne.symm (List.cons_ne_self c n')) ⟨[c], by simp, rfl⟩
      have hrec := ih (c :: nameRev) rest ts hn'
        (fun x hx => hnl x (by simp [hx]))
        (fun m hm hmn hex => by
          obtain ⟨u, hu, hum⟩ := hex
          exact hsuf m hm (hlen m ⟨u, hu, hum⟩) ⟨c :: u, by simp, by rw [hum]; rfl⟩)
        htail
      have hstep : matchFrom nameRev ((c :: n') ++ rest) =
          matchFrom (c :: nameRev) (n' ++ rest) := by
        simp [matchFrom, hc, htp]
      rw [hstep, hrec]
      simp

lemma speakerMatch_canonical (line : String) (n w d1 d2 t : List Char)
    (hdec : line.data = n ++ (w ++ '(' :: (d1 ++ ':' :: (d2 ++ ')' :: t))))
    (hn : n ≠ [])
    (hnl : ∀ c ∈ n, c ≠ '\n')
    (hlast : ∀ c, n.getLast? = some c → isPySpace c = false)
    (hw : w ≠ []) (hwAll : ∀ c ∈ w, isPySpace c = true)
    (hd1 : d1 ≠ []) (hd1All : ∀ c ∈ d1, c.isDigit = true)
    (hd2 : d2 ≠ []) (hd2All : ∀ c ∈ d2, c.isDigit = true)
    (ht : ∀ c ∈ t, isPySpace c = true) :
    speakerMatch line = some (⟨n⟩, ⟨d1 ++ ':' :: d2⟩) := by
  rw [speakerMatch, hdec]
  have hres := matchFrom_found n [] (w ++ '(' :: (d1 ++ ':' :: (d2 ++ ')' :: t)))
    (d1 ++ ':' :: d2) hn hnl ?_ (tailParse_canonical w d1 d2 t hw hwAll hd1 hd1All hd2 hd2All ht)
  · simpa using hres
  · rintro m hm _ ⟨u, hu, hum⟩
    apply tailParse_none_of_trailing m w d1 d2 t ?_ hwAll hd1All hd2All ht
    obtain ⟨cl, hcl⟩ : ∃ c, n.getLast? = some c :=
      ⟨n.getLast hn, List.getLast?_eq_getLast n hn⟩
    refine ⟨cl, ?_, hlast cl hcl⟩
    rw [hum, List.getLast?_append_of_ne_nil u hm] at hcl
    exact hcl

/-- Claim C2: a line of the shape name, whitespace, parenthesized
digit-colon-digit group, optional trailing whitespace — where the name holds
a further whitespace-preceded parenthesized digit-colon-digit group, holds
no newline and does not end in whitespace — is recognised as a header; the
whole prefix before the last group is bound as the speaker name and the last
group is the timestamp. -/
theorem c2_greedy_name_last_group (line : String) (n w d1 d2 t : List Char)
    (hdec : line.data = n ++ (w ++ '(' :: (d1 ++ ':' :: (d2 ++ ')' :: t))))
    (hnl : '\n' ∉ line.data)
    (hn : n ≠ [])
    (hlast : isPySpace (n.getLast hn) = false)
    (hw : w ≠ []) (hwAll : ∀ c ∈ w, isPySpace c = true)
    (hd1 : d1 ≠ []) (hd1All : ∀ c ∈ d1, c.isDigit = true)
    (hd2 : d2 ≠ []) (hd2All : ∀ c ∈ d2, c.isDigit = true)
    (ht : ∀ c ∈ t, isPySpace c = true)
    (hmulti : ∃ n1 w1 e1 f1 n2,
      n = n1 ++ (w1 ++ '(' :: (e1 ++ ':' :: (f1 ++ ')' :: n2))) ∧
      w1 ≠ [] ∧ (∀ c ∈ w1, isPySpace c = true) ∧
      e1 ≠ [] ∧ (∀ c ∈ e1, c.isDigit = true) ∧
      f1 ≠ [] ∧ (∀ c ∈ f1, c.isDigit = true)) :
    speakerMatch line = some (⟨n⟩, ⟨d1 ++ ':' :: d2⟩) := by
  apply speakerMatch_canonical line n w d1 d2 t hdec hn ?_ ?_ hw hwAll hd1 hd1All
    hd2 hd2All ht
  · intro c hc heq
    apply hnl
    rw [hdec]
    exact List.mem_append_left _ (heq ▸ hc)
  · intro c hc
    rw [List.getLast?_eq_getLast n hn] at hc
    have : n.getLast hn = c := by simpa using hc
    rw [← this]
    exact hlast

theorem c2_greedy_name_last_group_witness :
    speakerMatch "Alice (1:2) Bob (3:4)" = some ("Alice (1:2) Bob", "3:4") := by
  have h := c2_greedy_name_last_group "Alice (1:2) Bob (3:4)"
    "Alice (1:2) Bob".data [' '] ['3'] ['4'] []
    (by decide) (by decide) (by decide) (by decide) (by decide) (by decide)
    (by decide) (by decide) (by decide) (by decide) (by decide)
    ⟨"Alice".data, [' '], ['1'], ['2'], " Bob".data, by decide, by decide,
      by decide, by decide, by decide, by decide, by decide⟩
  simpa using h

lemma tailParse_none_of_no_paren (s : List Char) (h : '(' ∉ s) :
    tailParse s = none := by
  unfold tailParse
  split
  case _ r2 heq =>
    exfalso
    apply h
    have hmem : '(' ∈ s.dropWhile isPySpace := by rw [heq]; simp
    exact (List.dropWhile_suffix isPySpace).subset hmem
  · rfl

lemma matchFrom_none (rest : List Char) :
    ∀ nameRev, (∀ s, s <:+ rest → tailParse s = none) →
      matchFrom nameRev rest = none := by
  induction rest with
  | nil => intro _ _; rfl
  | cons c r ih =>
    intro nameRev h
    by_cases hc : c = '\n'
    · simp [matchFrom, hc]
    · have h1 : tailParse r = none := h r (List.suffix_cons c r)
      have h2 := ih (c :: nameRev) (fun s hs => h s (hs.trans (List.suffix_cons c r)))
      simp [matchFrom, hc, h1, h2]

lemma dropWhile_head_false (p : Char → Bool) (l : List Char) (c : Char) (r : List Char)
    (h : l.dropWhile p = c :: r) : p c = false := by
  induction l with
  | nil => simp at h
  | cons a l ih =>
    by_cases ha : p a = true
    · rw [List.dropWhile_cons_of_pos (by simp [ha])] at h
      exact ih h
    · rw [List.dropWhile_cons_of_neg (by simpa using ha)] at h
      have hac : a = c := by simpa using congrArg (fun l => l.head?) h
      rw [← hac]
      simpa using ha

lemma c7_suffix_none (a d1 d2 rest : List Char)
    (ha : '(' ∉ a) (hrest : '(' ∉ rest)
    (hd1All : ∀ x ∈ d1, x.isDigit = true)
    (hd2All : ∀ x ∈ d2, x.isDigit = true) :
    ∀ s, s <:+ (a ++ '(' :: (d1 ++ ':' :: (d2 ++ ':' :: rest))) →
      tailParse s = none := by
  intro s hs
  have hRnp : '(' ∉ (d1 ++ ':' :: (d2 ++ ':' :: rest)) := by
    intro hmem
    rcases List.mem_append.mp hmem with h1 | h1
    · exact absurd (hd1All _ h1) (by decide)
    rcases List.mem_cons.mp h1 with h1 | h1
    · exact absurd h1 (by decide)
    rcases List.mem_append.mp h1 with h2 | h2
    · exact absurd (hd2All _ h2) (by decide)
    rcases List.mem_cons.mp h2 with h2 | h2
    · exact absurd h2 (by decide)
    · exact hrest h2
  obtain ⟨pre0, hpre0⟩ := hs
  rcases List.append_eq_append_iff.mp hpre0 with ⟨e, hae, hse⟩ | ⟨e, hpe, hre⟩
  · -- the suffix starts inside `a` (or exactly at the parenthesis gap)
    have henp : '(' ∉ e := fun hm => ha (hae ▸ List.mem_append_right pre0 hm)
    by_cases hews : ∀ x ∈ e, isPySpace x = true
    · have h1 := splitWhile_app Char.isDigit d1 ':' (d2 ++ ':' :: rest)
        hd1All (by decide)
      have h2 := splitWhile_app Char.isDigit d2 ':' rest hd2All (by decide)
      obtain ⟨htk, hdr⟩ := splitWhile_app isPySpace e '('
        (d1 ++ ':' :: (d2 ++ ':' :: rest)) hews (by decide)
      rw [hse]
      unfold tailParse
      split
      case _ r2 heq =>
        rw [hdr] at heq
        obtain rfl : r2 = d1 ++ ':' :: (d2 ++ ':' :: rest) := by
          simpa using heq.symm
        split
        · rfl
        · split
          case _ r4 heq2 =>
            rw [h1.2] at heq2
            obtain rfl : r4 = d2 ++ ':' :: rest := by
              simpa using heq2.symm
            split
            · rfl
            · split
              case _ r6 heq3 =>
                rw [h2.2] at heq3
                simp at heq3
              · rfl
          · rfl
      · rfl
    · -- `e` has a character that is not whitespace, and no parenthesis
      push_neg at hews
      have hk : e.dropWhile isPySpace ≠ [] := by
        intro hnil
        obtain ⟨x, hx, hxws⟩ := hews
        have := List.dropWhile_eq_nil_iff.mp hnil x hx
        simp [this] at hxws
      rcases hkk : e.dropWhile isPySpace with _ | ⟨k0, k'⟩
      · exact absurd hkk hk
      have hk0ws : isPySpace k0 = false := dropWhile_head_false isPySpace e k0 k' hkk
      have hk0mem : k0 ∈ e := (List.dropWhile_suffix isPySpace).subset (by rw [hkk]; simp)
      have hk0np : k0 ≠ '(' := fun hm => henp (hm ▸ hk0mem)
      rw [hse]
      unfold tailParse
      split
      case _ r2 heq =>
        exfalso
        rw [List.dropWhile_append, hkk] at heq
        simp at heq
        exact hk0np heq.1
      · rfl
  · -- the suffix starts at or after the opening parenthesis
    cases e with
    | nil =>
      have hse : s = '(' :: (d1 ++ ':' :: (d2 ++ ':' :: rest)) := by
        simpa using hre.symm
      rw [hse]
      unfold tailParse
      split
      case _ r2 heq =>
        rw [List.dropWhile_cons_of_neg (by decide)] at heq
        obtain rfl : r2 = d1 ++ ':' :: (d2 ++ ':' :: rest) := by
          simpa using heq.symm
        split
        case _ hemp =>
          rfl
        case _ hemp =>
          exfalso
          rw [List.takeWhile_cons_of_neg (by decide)] at hemp
          exact hemp rfl
      · rfl
    | cons k0 e' =>
      have hk : k0 = '(' ∧ d1 ++ ':' :: (d2 ++ ':' :: rest) = e' ++ s := by
        constructor
        · simpa using (congrArg (fun l => l.head?) hre).symm
        · simpa using congrArg List.tail hre
      apply tailParse_none_of_no_paren
      intro hmem
      exact hRnp (hk.2 ▸ List.mem_append_right e' hmem)

/-- Claim C7: a line whose only parenthesized group is a timestamp-like
parenthetical containing more than one colon — more than two digit groups,
such as 1:02:03 or 1:2:3:4 — is not recognised as a header: the matcher
returns none.  The decomposition fixes the first two digit groups and the
first two colons; everything from the second colon on is arbitrary
parenthesis-free text, so parentheticals with any number of further digit
groups are covered. -/
theorem c7_multicolon_rejected (line : String) (a d1 d2 rest : List Char)
    (hdec : line.data = a ++ '(' :: (d1 ++ ':' :: (d2 ++ ':' :: rest)))
    (ha : '(' ∉ a) (hrest : '(' ∉ rest)
    (hd1 : d1 ≠ []) (hd1All : ∀ x ∈ d1, x.isDigit = true)
    (hd2 : d2 ≠ []) (hd2All : ∀ x ∈ d2, x.isDigit = true) :
    speakerMatch line = none := by
  rw [speakerMatch, hdec]
  exact matchFrom_none _ []
    (c7_suffix_none a d1 d2 rest ha hrest hd1All hd2All)

theorem c7_multicolon_rejected_witness :
    speakerMatch "Alice (1:02:03)" = none ∧
    speakerMatch "Alice (1:2:3:4)" = none :=
  ⟨c7_multicolon_rejected "Alice (1:02:03)" "Alice ".data ['1'] ['0', '2'] "03)".data
    (by decide) (by decide) (by decide) (by decide) (by decide) (by decide)
    (by decide),
   c7_multicolon_rejected "Alice (1:2:3:4)" "Alice ".data ['1'] ['2'] "3:4)".data
    (by decide) (by decide) (by decide) (by decide) (by decide) (by decide)
    (by decide)⟩

/-- Claim C10: a header line with leading whitespace before the speaker name
is still recognised, the leading whitespace is kept verbatim in the
extracted name (only the whitespace just before the timestamp parenthesis is
excluded), and two names differing only in leading whitespace are distinct
speakers receiving independent style identifiers. -/
theorem c10_leading_whitespace_name (line : String) (n w d1 d2 t : List Char)
    (hdec : line.data = n ++ (w ++ '(' :: (d1 ++ ':' :: (d2 ++ ')' :: t))))
    (hnl : '\n' ∉ line.data)
    (hn : n ≠ [])
    (hlead : isPySpace (n.head hn) = true)
    (hlast : isPySpace (n.getLast hn) = false)
    (hw : w ≠ []) (hwAll : ∀ c ∈ w, isPySpace c = true)
    (hd1 : d1 ≠ []) (hd1All : ∀ c ∈ d1, c.isDigit = true)
    (hd2 : d2 ≠ []) (hd2All : ∀ c ∈ d2, c.isDigit = true)
    (ht : ∀ c ∈ t, isPySpace c = true) :
    speakerMatch line = some (⟨n⟩, ⟨d1 ++ ':' :: d2⟩) ∧
    uniqueSpeakers [⟨"  Alice", "00:01", ""⟩, ⟨"Alice", "00:02", ""⟩] =
      ["  Alice", "Alice"] ∧
    List.lookup "  Alice"
      (speakerMapping [⟨"  Alice", "00:01", ""⟩, ⟨"Alice", "00:02", ""⟩]) = some 1 ∧
    List.lookup "Alice"
      (speakerMapping [⟨"  Alice", "00:01", ""⟩, ⟨"Alice", "00:02", ""⟩]) = some 2 := by
  refine ⟨?_, by decide, by decide, by decide⟩
  apply speakerMatch_canonical line n w d1 d2 t hdec hn ?_ ?_ hw hwAll hd1 hd1All
    hd2 hd2All ht
  · intro c hc heq
    apply hnl
    rw [hdec]
    exact List.mem_append_left _ (heq ▸ hc)
  · intro c hc
    rw [List.getLast?_eq_getLast n hn] at hc
    have : n.getLast hn = c := by simpa using hc
    rw [← this]
    exact hlast

theorem c10_leading_whitespace_name_witness :
    speakerMatch "  Alice (00:01)" = some ("  Alice", "00:01") ∧
    List.lookup "  Alice"
      (speakerMapping [⟨"  Alice", "00:01", ""⟩, ⟨"Alice", "00:02", ""⟩]) = some 1 ∧
    List.lookup "Alice"
      (speakerMapping [⟨"  Alice", "00:01", ""⟩, ⟨"Alice", "00:02", ""⟩]) = some 2 := by
  have h := c10_leading_whitespace_name "  Alice (00:01)" "  Alice".data [' ']
    ['0', '0'] ['0', '1'] []
    (by decide) (by decide) (by decide) (by decide) (by decide) (by decide)
    (by decide) (by decide) (by decide) (by decide) (by decide) (by decide)
  exact ⟨by simpa using h.1, h.2.2.1, h.2.2.2⟩

lemma split2_sep (rest : List Char) :
    split2 ('\n' :: '\n' :: rest) = [] :: split2 rest := by
  simp [split2]

lemma splitRuns_sep (rest : List Char) :
    splitRuns ('\n' :: '\n' :: rest) = [] :: splitRuns (rest.dropWhile isNl) := by
  simp [splitRuns]

lemma splitRuns_nil : splitRuns [] = [[]] := by simp [splitRuns]

lemma split2_cons_of (c : Char) (rest : List Char)
    (h : c ≠ '\n' ∨ rest.head? ≠ some '\n') :
    split2 (c :: rest) =
      match split2 rest with
      | [] => [[c]]
      | h :: t => (c :: h) :: t := by
  rw [split2.eq_def]
  split
  · rename_i heq
    exact absurd heq (by simp)
  · rename_i rest' heq
    exfalso
    injection heq with h1 h2
    rcases h with h | h
    · exact h h1
    · rw [h2] at h
      simp at h
  · rename_i c2 rest2 hno heq
    injection heq with h1 h2
    subst h1
    subst h2
    rfl

lemma splitRuns_cons_of (c : Char) (rest : List Char)
    (h : c ≠ '\n' ∨ rest.head? ≠ some '\n') :
    splitRuns (c :: rest) =
      match splitRuns rest with
      | [] => [[c]]
      | h :: t => (c :: h) :: t := by
  rw [splitRuns.eq_def]
  split
  · rename_i heq
    exact absurd heq (by simp)
  · rename_i rest' heq
    exfalso
    injection heq with h1 h2
    rcases h with h | h
    · exact h h1
    · rw [h2] at h
      simp at h
  · rename_i c2 rest2 hno heq
    injection heq with h1 h2
    subst h1
    subst h2
    rfl

lemma split2_ne_nil : ∀ l : List Char, split2 l ≠ [] := by
  intro l
  rcases l with _ | ⟨c, rest⟩
  · simp [split2]
  · by_cases hsep : c = '\n' ∧ rest.head? = some '\n'
    · obtain ⟨hc, hr⟩ := hsep
      rcases rest with _ | ⟨c2, rest'⟩
      · simp at hr
      · have hc2 : c2 = '\n' := by simpa using hr
        subst hc
        subst hc2
        rw [split2_sep]
        simp
    · have h' : c ≠ '\n' ∨ rest.head? ≠ some '\n' := by tauto
      rw [split2_cons_of c rest h']
      rcases split2 rest with _ | ⟨h0, t0⟩ <;> simp

lemma splitRuns_ne_nil : ∀ l : List Char, splitRuns l ≠ [] := by
  intro l
  rcases l with _ | ⟨c, rest⟩
  · simp [splitRuns_nil]
  · by_cases hsep : c = '\n' ∧ rest.head? = some '\n'
    · obtain ⟨hc, hr⟩ := hsep
      rcases rest with _ | ⟨c2, rest'⟩
      · simp at hr
      · have hc2 : c2 = '\n' := by simpa using hr
        subst hc
        subst hc2
        rw [splitRuns_sep]
        simp
    · have h' : c ≠ '\n' ∨ rest.head? ≠ some '\n' := by tauto
      rw [splitRuns_cons_of c rest h']
      rcases splitRuns rest with _ | ⟨h0, t0⟩ <;> simp

lemma heads_eq_aux : ∀ (k : Nat) (l : List Char), l.length ≤ k →
    (split2 l).head? = (splitRuns l).head? := by
  intro k
  induction k with
  | zero =>
    intro l hl
    have : l = [] := List.eq_nil_of_length_eq_zero (Nat.le_zero.mp hl)
    subst this
    rw [splitRuns_nil]
    rfl
  | succ k ih =>
    intro l hl
    rcases l with _ | ⟨c, rest⟩
    · rw [splitRuns_nil]; rfl
    by_cases hsep : c = '\n' ∧ rest.head? = some '\n'
    · obtain ⟨hc, hr⟩ := hsep
      rcases rest with _ | ⟨c2, rest'⟩
      · simp at hr
      have hc2 : c2 = '\n' := by simpa using hr
      subst hc
      subst hc2
      rw [split2_sep, splitRuns_sep]
      rfl
    · have h' : c ≠ '\n' ∨ rest.head? ≠ some '\n' := by tauto
      rw [split2_cons_of c rest h', splitRuns_cons_of c rest h']
      have hih := ih rest (by simpa using Nat.le_of_succ_le_succ hl)
      rcases h2 : split2 rest with _ | ⟨h0, t0⟩
      · exact absurd h2 (split2_ne_nil rest)
      rcases h3 : splitRuns rest with _ | ⟨h1, t1⟩
      · exact absurd h3 (splitRuns_ne_nil rest)
      rw [h2, h3] at hih
      have hh : h0 = h1 := by simpa using hih
      simp [hh]

lemma stripL_nil : stripL [] = [] := rfl

lemma stripL_cons_ws (c : Char) (l : List Char) (h : isPySpace c = true) :
    stripL (c :: l) = stripL l := by
  unfold stripL
  rw [List.dropWhile_cons_of_pos (by simp [h])]

lemma chunksOf_cons (x : List Char) (L : List (List Char)) :
    chunksOf (x :: L) =
      if (stripL x).isEmpty then chunksOf L else stripL x :: chunksOf L := by
  unfold chunksOf
  simp only [List.map_cons, List.filter_cons]
  by_cases h : (stripL x).isEmpty = true
  · simp [h]
  · simp [h]

lemma chunksOf_nil_chunk (L : List (List Char)) :
    chunksOf ([] :: L) = chunksOf L := by
  rw [chunksOf_cons]
  simp [stripL_nil]

lemma chunks_splitRuns_dropNl (r : List Char) :
    chunksOf (splitRuns (r.dropWhile isNl)) = chunksOf (splitRuns r) := by
  rcases r with _ | ⟨c, r'⟩
  · rfl
  by_cases hc : c = '\n'
  · subst hc
    rw [List.dropWhile_cons_of_pos (by simp [isNl])]
    rcases hr' : r' with _ | ⟨c2, r''⟩
    · have h1 : splitRuns ['\n'] = [['\n']] := by
        rw [splitRuns_cons_of '\n' [] (by simp), splitRuns_nil]
      rw [h1, chunksOf_cons]
      have h2 : stripL ['\n'] = [] := rfl
      simp [h2, splitRuns_nil, chunksOf_cons, stripL_nil]
    · by_cases hc2 : c2 = '\n'
      · subst hc2
        rw [splitRuns_sep, chunksOf_nil_chunk]
        rw [List.dropWhile_cons_of_pos (by simp [isNl])]
      · rw [List.dropWhile_cons_of_neg (by simp [isNl, hc2])]
        rw [splitRuns_cons_of '\n' (c2 :: r'') (by simp [hc2])]
        rcases h3 : splitRuns (c2 :: r'') with _ | ⟨h1, t1⟩
        · exact absurd h3 (splitRuns_ne_nil _)
        rw [chunksOf_cons, chunksOf_cons, stripL_cons_ws '\n' h1 (by decide)]
  · rw [List.dropWhile_cons_of_neg (by simp [isNl, hc])]

lemma chunks_eq_aux : ∀ (k : Nat) (l : List Char), l.length ≤ k →
    chunksOf (split2 l) = chunksOf (splitRuns l) := by
  intro k
  induction k with
  | zero =>
    intro l hl
    have : l = [] := List.eq_nil_of_length_eq_zero (Nat.le_zero.mp hl)
    subst this
    rw [splitRuns_nil]
    rfl
  | succ k ih =>
    intro l hl
    rcases l with _ | ⟨c, rest⟩
    · rw [splitRuns_nil]; rfl
    by_cases hsep : c = '\n' ∧ rest.head? = some '\n'
    · obtain ⟨hc, hr⟩ := hsep
      rcases rest with _ | ⟨c2, rest'⟩
      · simp at hr
      have hc2 : c2 = '\n' := by simpa using hr
      subst hc
      subst hc2
      rw [split2_sep, splitRuns_sep, chunksOf_nil_chunk, chunksOf_nil_chunk]
      rw [chunks_splitRuns_dropNl rest']
      apply ih rest'
      have := hl
      simp at this
      omega
    · have h' : c ≠ '\n' ∨ rest.head? ≠ some '\n' := by tauto
      rw [split2_cons_of c rest h', splitRuns_cons_of c rest h']
      have hih := ih rest (by simpa using Nat.le_of_succ_le_succ hl)
      have hheads := heads_eq_aux rest.length rest le_rfl
      rcases h2 : split2 rest with _ | ⟨h0, t0⟩
      · exact absurd h2 (split2_ne_nil rest)
      rcases h3 : splitRuns rest with _ | ⟨h1, t1⟩
      · exact absurd h3 (splitRuns_ne_nil rest)
      rw [h2, h3] at hih hheads
      have hh : h0 = h1 := by simpa using hheads
      subst hh
      show chunksOf ((c :: h0) :: t0) = chunksOf ((c :: h0) :: t1)
      have htails : chunksOf t0 = chunksOf t1 := by
        rw [chunksOf_cons, chunksOf_cons] at hih
        by_cases he : (stripL h0).isEmpty = true
        · simpa [he] using hih
        · simpa [he] using hih
      rw [chunksOf_cons, chunksOf_cons, htails]

/-- Claim C3: the Paragraph Splitter agrees, on every section text, with the
spec algorithm that splits on each run of two or more consecutive line
breaks, strips each chunk, discards empty chunks and replaces remaining
single line breaks by spaces; in particular the section text built from the
lines "line one", "line two", "", "line three" yields exactly the
paragraphs "line one line two" and "line three". -/
theorem c3_paragraph_splitter (text : String) :
    specParagraphs text = paragraphs text ∧
    paragraphs "line one\nline two\n\nline three" =
      ["line one line two", "line three"] := by
  constructor
  · unfold specParagraphs paragraphs
    rw [chunks_eq_aux text.data.length text.data le_rfl]
  · decide

lemma replCh_ne_nl (c : Char) : replCh c ≠ '\n' := by
  unfold replCh
  by_cases h : c = '\n' <;> simp [h]

lemma isPySpace_replCh (c : Char) : isPySpace (replCh c) = isPySpace c := by
  unfold replCh
  by_cases h : c = '\n' <;> simp [h] <;> rfl

lemma stripL_map_replCh (l : List Char) :
    stripL (l.map replCh) = (stripL l).map replCh := by
  have hcomp : (isPySpace ∘ replCh) = isPySpace := funext isPySpace_replCh
  unfold stripL
  rw [List.dropWhile_map, hcomp, ← List.map_reverse, List.dropWhile_map, hcomp,
    ← List.map_reverse]

lemma dropWhile_idem (p : Char → Bool) (l : List Char) :
    (l.dropWhile p).dropWhile p = l.dropWhile p := by
  rcases h : l.dropWhile p with _ | ⟨c, r⟩
  · rfl
  · have hc : p c = false := dropWhile_head_false p l c r h
    exact List.dropWhile_cons_of_neg (by simp [hc])

lemma dropWhile_append_last (p : Char → Bool) (x : List Char) (c : Char)
    (h : p c = false) : (x ++ [c]).dropWhile p = x.dropWhile p ++ [c] := by
  rw [List.dropWhile_append]
  by_cases he : (x.dropWhile p).isEmpty = true
  · have hx : x.dropWhile p = [] := by simpa [List.isEmpty_iff] using he
    have hone : ([c] : List Char).dropWhile p = [c] :=
      List.dropWhile_cons_of_neg (by simp [h])
    rw [if_pos he, hx, hone]
    simp
  · simp [he]

lemma stripL_idem (l : List Char) : stripL (stripL l) = stripL l := by
  rcases hm : l.dropWhile isPySpace with _ | ⟨c, m'⟩
  · have h1 : stripL l = [] := by
      unfold stripL
      rw [hm]
      rfl
    rw [h1]
    rfl
  · have hc : isPySpace c = false := dropWhile_head_false _ _ _ _ hm
    have h1 : stripL l = c :: (m'.reverse.dropWhile isPySpace).reverse := by
      unfold stripL
      rw [hm, List.reverse_cons, dropWhile_append_last isPySpace _ c hc,
        List.reverse_append]
      simp
    rw [h1]
    unfold stripL
    rw [List.dropWhile_cons_of_neg (by simp [hc]), List.reverse_cons,
      dropWhile_append_last isPySpace _ c hc, List.reverse_reverse,
      dropWhile_idem, List.reverse_append]
    simp

lemma split2_no_nl (l : List Char) (h : ∀ c ∈ l, c ≠ '\n') : split2 l = [l] := by
  induction l with
  | nil => rfl
  | cons c rest ih =>
    have hc : c ≠ '\n' := h c (by simp)
    rw [split2_cons_of c rest (Or.inl hc), ih (fun x hx => h x (by simp [hx]))]

lemma map_replCh_id (l : List Char) (h : ∀ c ∈ l, c ≠ '\n') :
    l.map replCh = l := by
  have : l.map replCh = l.map id := by
    apply List.map_congr_left
    intro a ha
    unfold replCh
    simp [h a ha]
  rw [this, List.map_id]

/-- Claim C8: the Paragraph Splitter is idempotent on its own output — each
produced paragraph, split again as a one-paragraph text, comes back as
exactly that single paragraph. -/
theorem c8_splitter_idempotent (text p : String) (hp : p ∈ paragraphs text) :
    paragraphs p = [p] := by
  unfold paragraphs at hp
  rw [List.mem_map] at hp
  obtain ⟨q, hq, hpq⟩ := hp
  unfold chunksOf at hq
  rw [List.mem_filter] at hq
  obtain ⟨hq1, hq2⟩ := hq
  rw [List.mem_map] at hq1
  obtain ⟨r, hr, hqr⟩ := hq1
  have hpdata : p.data = q.map replCh := by rw [← hpq]
  have hqstrip : stripL q = q := by rw [← hqr]; exact stripL_idem r
  have hqne : q ≠ [] := by
    intro hnil
    rw [hnil] at hq2
    simp at hq2
  have hnonl : ∀ c ∈ p.data, c ≠ '\n' := by
    rw [hpdata]
    intro c hc
    rw [List.mem_map] at hc
    obtain ⟨c0, _, hc0⟩ := hc
    rw [← hc0]
    exact replCh_ne_nl c0
  unfold paragraphs
  rw [split2_no_nl p.data hnonl]
  have hstrip_p : stripL p.data = p.data := by
    rw [hpdata, stripL_map_replCh, hqstrip]
  have hpne : p.data ≠ [] := by
    rw [hpdata]
    simpa using hqne
  rw [chunksOf_cons, hstrip_p]
  have hne : p.data.isEmpty = false := by
    simpa [List.isEmpty_iff] using hpne
  rw [hne]
  simp only [Bool.false_eq_true, if_false]
  have hid : p.data.map replCh = p.data := map_replCh_id p.data hnonl
  have : chunksOf ([] : List (List Char)) = [] := rfl
  simp [chunksOf, hid]

theorem c8_splitter_idempotent_witness :
    "line one line two" ∈ paragraphs "line one\nline two\n\nline three" ∧
    paragraphs "line one line two" = ["line one line two"] :=
  ⟨by decide, c8_splitter_idempotent "line one\nline two\n\nline three"
    "line one line two" (by decide)⟩
